import Mathlib

/-!
Verification of the run_wrf job-batch orchestrator.

Shallow embedding of the pooling/rescheduling loop of
`run_wrf/submit_jobs.py` (function `submit_jobs`) and of the helper
functions of `misc_tools.py` (`find_nproc`, `grid_combinations`,
`get_identical_runs`, `prepare_restart`), together with proofs of the
stated properties.  Machine floats of the source are embedded as exact
rationals; file-system effects are embedded as explicit input/output
data.
-/

namespace RunWrf

/-! ### Process tiling: `find_nproc` (misc_tools.py, lines 31-57)

The Python loop `for d in np.arange(min_n_per_proc, n+1): if n%d==0:
return int(n/d)` is embedded as `evenSearch n d fuel` which scans the
divisor candidates `d, d+1, ...` (`fuel` many of them) and returns
`n / d` for the first `d` dividing `n`. -/

def evenSearch (n : Nat) : Nat → Nat → Option Nat
  | _, 0 => none
  | d, fuel + 1 => if n % d = 0 then some (n / d) else evenSearch n (d + 1) fuel

def find_nproc (n min_n_per_proc : Nat) (even_split : Bool) : Nat :=
  if n ≤ min_n_per_proc then 1
  else if even_split = true then
    (evenSearch n min_n_per_proc (n + 1 - min_n_per_proc)).getD 0
  else n / min_n_per_proc

lemma evenSearch_spec (n : Nat) :
    ∀ (fuel d : Nat), (∃ e, d ≤ e ∧ e < d + fuel ∧ n % e = 0) →
      ∃ e, d ≤ e ∧ e < d + fuel ∧ n % e = 0 ∧
        (∀ e2, d ≤ e2 → e2 < e → n % e2 ≠ 0) ∧
        evenSearch n d fuel = some (n / e) := by
  intro fuel
  induction fuel with
  | zero =>
    rintro d ⟨e, h1, h2, -⟩
    omega
  | succ fuel ih =>
    rintro d ⟨e, h1, h2, h3⟩
    by_cases hd : n % d = 0
    · exact ⟨d, le_refl d, by omega, hd, fun e2 a b => by omega, by simp [evenSearch, hd]⟩
    · have he : d + 1 ≤ e := by
        rcases Nat.lt_or_ge d e with h | h
        · omega
        · have hed : e = d := by omega
          rw [hed] at h3
          exact absurd h3 hd
      obtain ⟨e2, g1, g2, g3, g4, g5⟩ := ih (d + 1) ⟨e, he, by omega, h3⟩
      refine ⟨e2, by omega, by omega, g3, ?_, ?_⟩
      · intro e3 hd3 hlt
        by_cases h3d : e3 = d
        · rw [h3d]; exact hd
        · exact g4 e3 (by omega) hlt
      · simpa [evenSearch, hd] using g5

/-- Claim C2 (amended): `find_nproc` returns 1 when `n ≤ min_n_per_proc`;
with `even_split = false` it returns `⌊n / min_n_per_proc⌋`; with
`even_split = true` and `min_n_per_proc < n` it returns `n / d` for the
smallest divisor `d` of `n` with `min_n_per_proc ≤ d` (the number of
processors, not the divisor itself), so `find_nproc 101 25 true = 1`
since the only such divisor of the prime 101 is 101 itself.  The spec's
examples `find_nproc 25 25 false = 1` and `find_nproc 100 25 false = 4`
hold as stated. -/
theorem C2_find_nproc_amended :
    (∀ n m es, n ≤ m → find_nproc n m es = 1) ∧
    (∀ n m, m < n → find_nproc n m false = n / m) ∧
    (∀ n m, 0 < m → m < n →
      ∃ d, m ≤ d ∧ d ∣ n ∧ (∀ e, m ≤ e → e ∣ n → d ≤ e) ∧
        find_nproc n m true = n / d) ∧
    find_nproc 25 25 false = 1 ∧ find_nproc 100 25 false = 4 ∧
    find_nproc 101 25 true = 1 := by
  refine ⟨?_, ?_, ?_, by decide, by decide, by decide⟩
  · intro n m es h
    simp [find_nproc, h]
  · intro n m h
    rw [find_nproc, if_neg (by omega)]
    simp
  · intro n m hm hn
    obtain ⟨e, g1, g2, g3, g4, g5⟩ :=
      evenSearch_spec n (n + 1 - m) m ⟨n, by omega, by omega, Nat.mod_self n⟩
    refine ⟨e, g1, Nat.dvd_of_mod_eq_zero g3, ?_, ?_⟩
    · intro e2 he2 hdvd
      by_contra hlt
      exact g4 e2 he2 (by omega) (Nat.mod_eq_zero_of_dvd hdvd)
    · rw [find_nproc, if_neg (by omega), if_pos rfl, g5]
      rfl

/-- Claim C2 counterexample: the claim asserts
`find_nproc 101 25 true = 101` (the smallest divisor of the prime 101
that is at least 25); the code returns `n / d = 101 / 101 = 1`. -/
theorem C2_counterexample :
    find_nproc 101 25 true = 1 ∧ find_nproc 101 25 true ≠ 101 := by decide

/-- Witness for C2: the amended theorem applied at concrete inputs. -/
theorem C2_witness : find_nproc 3 5 true = 1 ∧ find_nproc 100 25 false = 4 :=
  ⟨C2_find_nproc_amended.1 3 5 true (by decide),
   C2_find_nproc_amended.2.1 100 25 (by decide)⟩

/-! ### The pooling/rescheduling loop (submit_jobs.py, lines 297-571)

A repetition of a configuration is embedded as a `Run` carrying the
quantities the loop keeps in its parallel lists `IDs`, `nslots`, `rtr`,
`vmem` (`nxny` plays no role in the claims), plus the skip decision made
upstream of the pooling block.  Floats (`rtri`, `vmemi`) are embedded as
exact rationals.  `Conf` carries the configuration fields read by the
block: `pool_jobs`, `conf.pool_size`, the scheduler kind
(`none` when `use_job_scheduler` is false), the selected
`send_rt_signal` value and `request_vmem`. -/

inductive Sched
  | sge
  | slurm
deriving DecidableEq, Repr

structure Conf where
  pool_jobs : Bool
  pool_size : Nat
  sched : Option Sched
  send_rt_signal : Rat
  request_vmem : Bool
deriving DecidableEq, Repr

structure Run where
  id : Nat
  nslots : Nat
  rtr : Rat
  vmem : Rat
  skip : Bool
deriving DecidableEq, Repr

/-- The two `ValueError`s the pooling block can raise
(lines 457 and 507 of submit_jobs.py). -/
inductive SubmitError
  | poolTooSmall
  | rtSignalTooLarge
deriving DecidableEq, Repr

/-- One scheduler-submission invocation: the flushed pool members in
first-accepted order, the requested wall-clock `rtr_max = max(rtr)`
(`none` without a scheduler) and the memory request
`vmemp = int(sum(vmem)/sum(nslots))` (`none` unless `request_vmem`). -/
structure Submission where
  members : List Run
  rtp : Option Rat
  vmemp : Option Int
deriving DecidableEq, Repr

def sumSlots (pool : List Run) : Nat := (pool.map Run.nslots).sum

def sumVmem (pool : List Run) : Rat := (pool.map Run.vmem).sum

/-- Python `max` over a nonempty list (`max(rtr)`, line 503). -/
def listMax : List Rat → Rat
  | [] => 0
  | x :: xs => xs.foldl max x

/-- Python `int()` truncates toward zero; equal to `⌊q⌋` for the
nonnegative memory values the code feeds it. -/
def ratTrunc (q : Rat) : Int := if 0 ≤ q then ⌊q⌋ else -⌊-q⌋

/-- Lines 491-527: the body of the `while iterate` loop for one pool.
Under a scheduler it computes `rtr_max`, checks it against
`send_rt_signal` (line 506) and derives `vmemp` (line 499). -/
def mkSubmission (conf : Conf) (pool : List Run) : Except SubmitError Submission :=
  match conf.sched with
  | none => .ok ⟨pool, none, none⟩
  | some _ =>
    if listMax (pool.map Run.rtr) < conf.send_rt_signal then .error .rtSignalTooLarge
    else
      .ok ⟨pool, some (listMax (pool.map Run.rtr)),
        if conf.request_vmem = true then
          some (ratTrunc (sumVmem pool / (sumSlots pool : Rat)))
        else none⟩

/-- Lines 444-569: one flush.  `pool` is the accumulated state (with the
current run `cur` already appended when it was accepted).  If the
slot-sum strictly exceeds `pool_size` and the pool holds more than one
run, the last run is cut out (lines 448-455) and seeds the next pool
(lines 553-558); a single oversized run raises under SGE (line 457).
When the cut-out run was the last of the batch, the `while iterate` loop
performs one extra pass to flush it (lines 560-563). -/
def flushBlock (conf : Conf) (pool : List Run) (lastId : Bool) (cur : Run) :
    Except SubmitError (List Run × List Submission) :=
  if conf.pool_jobs = true ∧ conf.pool_size < sumSlots pool then
    if 1 < pool.length then
      match mkSubmission conf pool.dropLast with
      | .error e => .error e
      | .ok s1 =>
        if lastId = true then
          match mkSubmission conf [cur] with
          | .error e => .error e
          | .ok s2 => .ok ([cur], [s1, s2])
        else .ok ([cur], [s1])
    else if conf.sched = some Sched.sge then .error .poolTooSmall
    else
      match mkSubmission conf pool with
      | .error e => .error e
      | .ok s1 => .ok ([], [s1])
  else
    match mkSubmission conf pool with
    | .error e => .error e
    | .ok s1 => .ok ([], [s1])

/-- Lines 427-444: one iteration of the repetition loop, restricted to
the pooling state.  A skipped run is popped from the parallel lists and
the iteration `continue`s unless it was the batch's last repetition with
a nonempty pool (line 435); an accepted run is appended and the pool is
flushed when pooling is off, the slot-sum reaches `pool_size`, or the
run is the last of the batch (line 444). -/
def stepRun (conf : Conf) (st : List Run) (r : Run) (lastId : Bool) :
    Except SubmitError (List Run × List Submission) :=
  if r.skip = true then
    if lastId = false ∨ st = [] then .ok (st, [])
    else flushBlock conf st lastId r
  else
    if conf.pool_jobs = false ∨ conf.pool_size ≤ sumSlots (st ++ [r]) ∨ lastId = true then
      flushBlock conf (st ++ [r]) lastId r
    else .ok (st ++ [r], [])

/-- The whole repetition loop over the batch; the last element of the
list is the run with `last_id = True` (line 428).  Any leftover state
after the final iteration is dead (the loop ends), so only the emitted
submissions are returned. -/
def runBatchAux (conf : Conf) : List Run → List Run → Except SubmitError (List Submission)
  | _, [] => .ok []
  | st, r :: rest =>
    match stepRun conf st r rest.isEmpty with
    | .error e => .error e
    | .ok (st2, subs) =>
      match runBatchAux conf st2 rest with
      | .error e => .error e
      | .ok subs2 => .ok (subs ++ subs2)

def runBatch (conf : Conf) (runs : List Run) : Except SubmitError (List Submission) :=
  runBatchAux conf [] runs

/-- The runs of a batch that were accepted (not skipped). -/
def accepted (runs : List Run) : List Run := runs.filter (fun r => !r.skip)

/-- Invariant of the pool state between iterations: the slot-sum is
below capacity, or the pool holds at most one run (the seed left by an
overflow split). -/
def poolInv (conf : Conf) (st : List Run) : Prop :=
  sumSlots st < conf.pool_size ∨ st.length ≤ 1

lemma mkSubmission_members {conf : Conf} {p : List Run} {s : Submission}
    (h : mkSubmission conf p = .ok s) : s.members = p := by
  unfold mkSubmission at h
  split at h
  · cases h
    rfl
  · split at h
    · cases h
    · cases h
      rfl

lemma flushBlock_cases {conf : Conf} {pool : List Run} {lastId : Bool} {cur : Run}
    {st' : List Run} {subs : List Submission}
    (h : flushBlock conf pool lastId cur = .ok (st', subs)) :
    (st' = [] ∧ (subs.map Submission.members).flatten = pool) ∨
    (st' = [cur] ∧ conf.pool_jobs = true ∧ conf.pool_size < sumSlots pool ∧
      1 < pool.length ∧
      ((lastId = false ∧ (subs.map Submission.members).flatten = pool.dropLast) ∨
       (lastId = true ∧ (subs.map Submission.members).flatten = pool.dropLast ++ [cur]))) := by
  unfold flushBlock at h
  split at h
  · rename_i hov
    split at h
    · rename_i hlen
      split at h
      · cases h
      · rename_i s1 hs1
        split at h
        · rename_i hlast
          split at h
          · cases h
          · rename_i s2 hs2
            cases h
            refine Or.inr ⟨rfl, hov.1, hov.2, hlen, Or.inr ⟨hlast, ?_⟩⟩
            simp [mkSubmission_members hs1, mkSubmission_members hs2]
        · rename_i hlast
          cases h
          refine Or.inr ⟨rfl, hov.1, hov.2, hlen, Or.inl ⟨by simpa using hlast, ?_⟩⟩
          simp [mkSubmission_members hs1]
    · split at h
      · cases h
      · split at h
        · cases h
        · rename_i s1 hs1
          cases h
          exact Or.inl ⟨rfl, by simp [mkSubmission_members hs1]⟩
  · split at h
    · cases h
    · rename_i s1 hs1
      cases h
      exact Or.inl ⟨rfl, by simp [mkSubmission_members hs1]⟩

lemma flushBlock_wf {conf : Conf} {pool : List Run} {lastId : Bool} {cur : Run}
    {st' : List Run} {subs : List Submission}
    (hp : pool ≠ []) (h : flushBlock conf pool lastId cur = .ok (st', subs)) :
    ∀ s ∈ subs, mkSubmission conf s.members = .ok s ∧ s.members ≠ [] := by
  have hok : ∀ (q : List Run) (s : Submission), q ≠ [] → mkSubmission conf q = .ok s →
      mkSubmission conf s.members = .ok s ∧ s.members ≠ [] := by
    intro q s hq hqs
    rw [mkSubmission_members hqs]
    exact ⟨hqs, hq⟩
  unfold flushBlock at h
  split at h
  · split at h
    · rename_i hlen
      have hdl : pool.dropLast ≠ [] := by
        have := List.length_dropLast pool
        intro hc
        rw [hc] at this
        simp at this
        omega
      split at h
      · cases h
      · rename_i s1 hs1
        split at h
        · split at h
          · cases h
          · rename_i s2 hs2
            cases h
            intro s hs
            rcases List.mem_cons.mp hs with hs | hs
            · subst hs
              exact hok _ _ hdl hs1
            · rw [List.mem_singleton] at hs
              subst hs
              exact hok _ _ (by simp) hs2
        · cases h
          intro s hs
          rw [List.mem_singleton] at hs
          subst hs
          exact hok _ _ hdl hs1
    · split at h
      · cases h
      · split at h
        · cases h
        · rename_i s1 hs1
          cases h
          intro s hs
          rw [List.mem_singleton] at hs
          subst hs
          exact hok _ _ hp hs1
  · split at h
    · cases h
    · rename_i s1 hs1
      cases h
      intro s hs
      rw [List.mem_singleton] at hs
      subst hs
      exact hok _ _ hp hs1

lemma accepted_cons (r : Run) (l : List Run) :
    accepted (r :: l) = accepted [r] ++ accepted l := by
  cases h : r.skip <;> simp [accepted, List.filter_cons, h]

lemma stepRun_true_spec {conf : Conf} {st : List Run} {r : Run} {st' : List Run}
    {subs : List Submission} (hinv : poolInv conf st)
    (h : stepRun conf st r true = .ok (st', subs)) :
    (subs.map Submission.members).flatten = st ++ accepted [r] := by
  unfold stepRun at h
  split at h
  · rename_i hskip
    split at h
    · rename_i hc
      have hst : st = [] := by
        rcases hc with hc | hc
        · cases hc
        · exact hc
      cases h
      simp [accepted, hskip, hst]
    · rcases flushBlock_cases h with ⟨-, hj⟩ | ⟨-, -, hsum, hlen, -⟩
      · rw [hj]
        simp [accepted, hskip]
      · exfalso
        rcases hinv with hi | hi <;> omega
  · rename_i hskip
    have hskipf : r.skip = false := by simpa using hskip
    split at h
    · rcases flushBlock_cases h with ⟨-, hj⟩ | ⟨-, -, -, -, hdisj⟩
      · rw [hj]
        simp [accepted, hskipf]
      · rcases hdisj with ⟨hl, -⟩ | ⟨-, hj⟩
        · simp at hl
        · rw [hj, List.dropLast_concat]
          simp [accepted, hskipf]
    · rename_i hc
      exact absurd (Or.inr (Or.inr rfl)) hc

lemma stepRun_false_spec {conf : Conf} {st : List Run} {r : Run} {st' : List Run}
    {subs : List Submission} (hinv : poolInv conf st)
    (h : stepRun conf st r false = .ok (st', subs)) :
    (subs.map Submission.members).flatten ++ st' = st ++ accepted [r] ∧ poolInv conf st' := by
  unfold stepRun at h
  split at h
  · rename_i hskip
    rw [if_pos (Or.inl rfl)] at h
    cases h
    exact ⟨by simp [accepted, hskip], hinv⟩
  · rename_i hskip
    have hskipf : r.skip = false := by simpa using hskip
    split at h
    · rcases flushBlock_cases h with ⟨hst, hj⟩ | ⟨hst, -, -, -, hdisj⟩
      · subst hst
        rw [hj]
        exact ⟨by simp [accepted, hskipf], Or.inr (by simp)⟩
      · subst hst
        rcases hdisj with ⟨-, hj⟩ | ⟨hl, -⟩
        · rw [hj, List.dropLast_concat]
          exact ⟨by simp [accepted, hskipf], Or.inr (by simp)⟩
        · simp at hl
    · rename_i hc
      cases h
      push_neg at hc
      have h2 := hc.2.1
      exact ⟨by simp [accepted, hskipf], Or.inl (by omega)⟩

lemma stepRun_wf {conf : Conf} {st : List Run} {r : Run} {lastId : Bool}
    {st' : List Run} {subs : List Submission}
    (h : stepRun conf st r lastId = .ok (st', subs)) :
    ∀ s ∈ subs, mkSubmission conf s.members = .ok s ∧ s.members ≠ [] := by
  unfold stepRun at h
  split at h
  · split at h
    · cases h
      intro s hs
      simp at hs
    · rename_i hc
      push_neg at hc
      exact flushBlock_wf hc.2 h
  · split at h
    · exact flushBlock_wf (by simp) h
    · cases h
      intro s hs
      simp at hs

lemma runBatchAux_flatten {conf : Conf} :
    ∀ (rest : List Run), rest ≠ [] → ∀ (st : List Run) (subs : List Submission),
      poolInv conf st → runBatchAux conf st rest = .ok subs →
      (subs.map Submission.members).flatten = st ++ accepted rest := by
  intro rest
  induction rest with
  | nil => intro h; exact absurd rfl h
  | cons r rest ih =>
    intro _ st subs hinv h
    unfold runBatchAux at h
    split at h
    · cases h
    · rename_i st2 subs1 hstep
      split at h
      · cases h
      · rename_i subs2 hrec
        cases h
        cases hrest : rest with
        | nil =>
          subst hrest
          simp [runBatchAux] at hrec
          subst hrec
          have hspec := stepRun_true_spec hinv hstep
          simpa using hspec
        | cons r2 rest2 =>
          subst hrest
          obtain ⟨hj, hinv2⟩ := stepRun_false_spec hinv hstep
          have hih := ih (by simp) st2 subs2 hinv2 hrec
          rw [List.map_append, List.flatten_append, hih, ← List.append_assoc, hj,
            List.append_assoc, ← accepted_cons]

lemma runBatchAux_wf {conf : Conf} :
    ∀ (rest st subs), runBatchAux conf st rest = .ok subs →
      ∀ s ∈ subs, mkSubmission conf s.members = .ok s ∧ s.members ≠ [] := by
  intro rest
  induction rest with
  | nil =>
    intro st subs h
    simp [runBatchAux] at h
    subst h
    intro s hs
    simp at hs
  | cons r rest ih =>
    intro st subs h
    unfold runBatchAux at h
    split at h
    · cases h
    · rename_i st2 subs1 hstep
      split at h
      · cases h
      · rename_i subs2 hrec
        cases h
        intro s hs
        rcases List.mem_append.mp hs with hs | hs
        · exact stepRun_wf hstep s hs
        · exact ih st2 subs2 hrec s hs

lemma foldl_max_le_self (a : Rat) (xs : List Rat) : a ≤ xs.foldl max a := by
  induction xs generalizing a with
  | nil => simp
  | cons x xs ih =>
    rw [List.foldl_cons]
    exact le_trans (le_max_left a x) (ih (max a x))

lemma le_foldl_max (x : Rat) (xs : List Rat) : ∀ (a : Rat), x ∈ xs → x ≤ xs.foldl max a := by
  induction xs with
  | nil =>
    intro a hx
    simp at hx
  | cons y ys ih =>
    intro a hx
    rw [List.foldl_cons]
    rcases List.mem_cons.mp hx with h | h
    · subst h
      exact le_trans (le_max_right a x) (foldl_max_le_self _ ys)
    · exact ih (max a y) h

lemma foldl_max_mem (xs : List Rat) : ∀ (a : Rat), xs.foldl max a = a ∨ xs.foldl max a ∈ xs := by
  induction xs with
  | nil => intro a; exact Or.inl rfl
  | cons y ys ih =>
    intro a
    rw [List.foldl_cons]
    rcases ih (max a y) with h | h
    · rcases max_choice a y with hm | hm
      · exact Or.inl (by rw [h, hm])
      · exact Or.inr (by rw [h, hm]; exact List.mem_cons_self y ys)
    · exact Or.inr (List.mem_cons_of_mem y h)

/-- `listMax` computes Python's `max`: an element of the list bounding
every element. -/
lemma listMax_spec (l : List Rat) (h : l ≠ []) :
    listMax l ∈ l ∧ ∀ x ∈ l, x ≤ listMax l := by
  cases l with
  | nil => exact absurd rfl h
  | cons a xs =>
    simp only [listMax]
    constructor
    · rcases foldl_max_mem xs a with h1 | h1
      · rw [h1]
        exact List.mem_cons_self a xs
      · exact List.mem_cons_of_mem a h1
    · intro x hx
      rcases List.mem_cons.mp hx with h1 | h1
      · subst h1
        exact foldl_max_le_self x xs
      · exact le_foldl_max x xs a h1

/-- On an `ok` result under a scheduler, `mkSubmission` recorded
`rtr_max = max(rtr)` and `vmemp = int(sum(vmem)/sum(nslots))`, and the
line-506 check passed. -/
lemma mkSubmission_ok_sched {conf : Conf} {sch : Sched} {p : List Run} {s : Submission}
    (hsch : conf.sched = some sch) (h : mkSubmission conf p = .ok s) :
    conf.send_rt_signal ≤ listMax (p.map Run.rtr) ∧
    s.rtp = some (listMax (p.map Run.rtr)) ∧
    s.vmemp = (if conf.request_vmem = true then
      some (ratTrunc (sumVmem p / (sumSlots p : Rat))) else none) := by
  unfold mkSubmission at h
  rw [hsch] at h
  dsimp only at h
  split at h
  · cases h
  · rename_i hlt
    cases h
    exact ⟨le_of_not_lt hlt, rfl, rfl⟩

/-! ### Concrete pooled batch used by the examples

Slot-costs `[4, 4, 4]` against capacity `pool_size = 10`, under SGE with
`request_vmem`: the spec's pool-accounting example. -/

def poolConfEx : Conf := ⟨true, 10, some Sched.sge, 0, true⟩

def runEx0 : Run := ⟨0, 4, 10, 40, false⟩

def runEx1 : Run := ⟨1, 4, 20, 40, false⟩

def runEx2 : Run := ⟨2, 4, 30, 80, false⟩

def subEx1 : Submission := ⟨[runEx0, runEx1], some 20, some 10⟩

def subEx2 : Submission := ⟨[runEx2], some 30, some 20⟩

lemma mkSubEx1 : mkSubmission poolConfEx [runEx0, runEx1] = .ok subEx1 := by
  norm_num [mkSubmission, poolConfEx, runEx0, runEx1, subEx1, listMax, sumSlots,
    sumVmem, ratTrunc, max_def]

lemma mkSubEx2 : mkSubmission poolConfEx [runEx2] = .ok subEx2 := by
  norm_num [mkSubmission, poolConfEx, runEx2, subEx2, listMax, sumSlots, sumVmem, ratTrunc]

lemma flushBlockEx :
    flushBlock poolConfEx [runEx0, runEx1, runEx2] true runEx2 = .ok ([runEx2], [subEx1, subEx2]) := by
  unfold flushBlock
  rw [if_pos (⟨rfl, by norm_num [sumSlots, poolConfEx, runEx0, runEx1, runEx2]⟩ :
        poolConfEx.pool_jobs = true ∧ poolConfEx.pool_size < sumSlots [runEx0, runEx1, runEx2]),
    if_pos (by norm_num : 1 < ([runEx0, runEx1, runEx2] : List Run).length),
    show ([runEx0, runEx1, runEx2] : List Run).dropLast = [runEx0, runEx1] from rfl]
  simp [mkSubEx1, mkSubEx2]

lemma runBatchEx : runBatch poolConfEx [runEx0, runEx1, runEx2] = .ok [subEx1, subEx2] := by
  have h0 : stepRun poolConfEx [] runEx0 false = .ok ([runEx0], []) := by
    norm_num [stepRun, poolConfEx, runEx0, sumSlots]
  have h1 : stepRun poolConfEx [runEx0] runEx1 false = .ok ([runEx0, runEx1], []) := by
    norm_num [stepRun, poolConfEx, runEx0, runEx1, sumSlots]
  have h2 : stepRun poolConfEx [runEx0, runEx1] runEx2 true = .ok ([runEx2], [subEx1, subEx2]) := by
    unfold stepRun
    rw [if_neg (by norm_num [runEx2]), if_pos (Or.inr (Or.inr rfl))]
    exact flushBlockEx
  simp only [runBatch, runBatchAux, List.isEmpty_cons, List.isEmpty_nil, h0, h1, h2,
    List.append_nil, List.nil_append]

/-- Claim C1: for every pooled batch (`pool_jobs`), (i) the submitted
pools concatenate, in order, to exactly the accepted (non-skipped) runs
of the batch — no accepted run is lost or submitted twice; (ii) at a
flush whose slot-sum strictly exceeds `pool_size` with more than one run
pooled, exactly the most-recently-accepted run is removed before
submission and seeds the next pool; (iii) with slot-costs `[4, 4, 4]`
and capacity 10 the flushed pool holds the first two runs (8 slots) and
the third run seeds — and, being the last of the batch, is flushed by —
one additional iteration. -/
theorem C1_pool_overflow_split :
    (∀ (conf : Conf) (runs : List Run) (subs : List Submission),
      conf.pool_jobs = true →
      runBatch conf runs = .ok subs →
      (subs.map Submission.members).flatten = accepted runs) ∧
    (∀ (conf : Conf) (st : List Run) (cur : Run) (lastId : Bool)
      (st' : List Run) (subs : List Submission),
      conf.pool_jobs = true →
      conf.pool_size < sumSlots (st ++ [cur]) →
      st ≠ [] →
      flushBlock conf (st ++ [cur]) lastId cur = .ok (st', subs) →
      st' = [cur] ∧ (subs.map Submission.members).head? = some st) ∧
    (runBatch poolConfEx [runEx0, runEx1, runEx2] = .ok [subEx1, subEx2] ∧
      sumSlots [runEx0, runEx1] = 8 ∧ subEx1.members = [runEx0, runEx1] ∧
      subEx2.members = [runEx2]) := by
  refine ⟨?_, ?_, runBatchEx, by norm_num [sumSlots, runEx0, runEx1], rfl, rfl⟩
  · intro conf runs subs hpj h
    unfold runBatch at h
    cases runs with
    | nil =>
      simp [runBatchAux] at h
      subst h
      simp [accepted]
    | cons r rest =>
      have hj := runBatchAux_flatten (r :: rest) (by simp) [] subs (Or.inr (by simp)) h
      simpa using hj
  · intro conf st cur lastId st' subs hpj hsum hst h
    unfold flushBlock at h
    rw [if_pos ⟨hpj, hsum⟩] at h
    have hlen : 1 < (st ++ [cur]).length := by
      have := List.length_pos.mpr hst
      simp
      omega
    rw [if_pos hlen, List.dropLast_concat] at h
    cases hm : mkSubmission conf st with
    | error e =>
      rw [hm] at h
      dsimp only at h
      cases h
    | ok s1 =>
      rw [hm] at h
      dsimp only at h
      split at h
      · cases hm2 : mkSubmission conf [cur] with
        | error e =>
          rw [hm2] at h
          dsimp only at h
          cases h
        | ok s2 =>
          rw [hm2] at h
          dsimp only at h
          cases h
          exact ⟨rfl, by simp [mkSubmission_members hm]⟩
      · cases h
        exact ⟨rfl, by simp [mkSubmission_members hm]⟩

/-- Witness for C1: the no-loss/no-duplication part applied to the
concrete `[4, 4, 4]`-slot batch with capacity 10. -/
theorem C1_witness :
    ([subEx1, subEx2].map Submission.members).flatten = accepted [runEx0, runEx1, runEx2] :=
  C1_pool_overflow_split.1 poolConfEx [runEx0, runEx1, runEx2] [subEx1, subEx2] rfl runBatchEx

/-! ### Concrete data for C3 and C4 -/

def slurmConfEx : Conf := ⟨true, 10, some Sched.slurm, 0, false⟩

def sgeConfEx : Conf := ⟨true, 10, some Sched.sge, 0, false⟩

def runBig : Run := ⟨0, 20, 5, 0, false⟩

def subBig : Submission := ⟨[runBig], some 5, none⟩

lemma mkSubBig : mkSubmission slurmConfEx [runBig] = .ok subBig := by
  norm_num [mkSubmission, slurmConfEx, runBig, subBig, listMax]

lemma runBatchBig : runBatch slurmConfEx [runBig] = .ok [subBig] := by
  have hf : flushBlock slurmConfEx [runBig] true runBig = .ok ([], [subBig]) := by
    unfold flushBlock
    rw [if_pos (⟨rfl, by norm_num [sumSlots, slurmConfEx, runBig]⟩ :
          slurmConfEx.pool_jobs = true ∧ slurmConfEx.pool_size < sumSlots [runBig]),
      if_neg (by norm_num : ¬ 1 < ([runBig] : List Run).length),
      if_neg (by simp [slurmConfEx] : ¬ slurmConfEx.sched = some Sched.sge)]
    simp [mkSubBig]
  have h0 : stepRun slurmConfEx [] runBig true = .ok ([], [subBig]) := by
    unfold stepRun
    rw [if_neg (by norm_num [runBig]), if_pos (Or.inr (Or.inr rfl))]
    exact hf
  simp only [runBatch, runBatchAux, List.isEmpty_nil, h0, List.append_nil]

lemma flushBlockSgeBig : flushBlock sgeConfEx [runBig] true runBig = .error .poolTooSmall := by
  unfold flushBlock
  rw [if_pos (⟨rfl, by norm_num [sumSlots, sgeConfEx, runBig]⟩ :
        sgeConfEx.pool_jobs = true ∧ sgeConfEx.pool_size < sumSlots [runBig]),
    if_neg (by norm_num : ¬ 1 < ([runBig] : List Run).length),
    if_pos (by rfl : sgeConfEx.sched = some Sched.sge)]

lemma runBatchSgeBig : runBatch sgeConfEx [runBig] = .error .poolTooSmall := by
  have h0 : stepRun sgeConfEx [] runBig true = .error .poolTooSmall := by
    unfold stepRun
    rw [if_neg (by norm_num [runBig]), if_pos (Or.inr (Or.inr rfl))]
    exact flushBlockSgeBig
  simp only [runBatch, runBatchAux, List.isEmpty_nil, h0]

/-- Claim C3 (amended): the fatal error for a single pooled run whose
slot-cost exceeds `pool_size` is raised only under the SGE scheduler
(`elif job_scheduler == "sge"`, line 456); the concrete 20-slot run
against capacity 10 raises it end to end. -/
theorem C3_single_oversized_sge_error :
    (∀ (conf : Conf) (r cur : Run) (lastId : Bool),
      conf.pool_jobs = true →
      conf.sched = some Sched.sge →
      conf.pool_size < r.nslots →
      flushBlock conf [r] lastId cur = .error .poolTooSmall) ∧
    runBatch sgeConfEx [runBig] = .error .poolTooSmall := by
  refine ⟨?_, runBatchSgeBig⟩
  intro conf r cur lastId hpj hsch hsize
  unfold flushBlock
  rw [if_pos ⟨hpj, by simpa [sumSlots] using hsize⟩,
    if_neg (by norm_num : ¬ 1 < ([r] : List Run).length), if_pos hsch]

/-- Claim C3 counterexample: under SLURM the same pooled batch — one
run of slot-cost 20 against capacity 10 — raises no error; the run is
submitted whole (the code's slot check is specific to SGE). -/
theorem C3_counterexample :
    slurmConfEx.pool_jobs = true ∧ slurmConfEx.pool_size < runBig.nslots ∧
    runBatch slurmConfEx [runBig] = .ok [subBig] :=
  ⟨rfl, by norm_num [slurmConfEx, runBig], runBatchBig⟩

/-- Witness for C3: the amended theorem at the concrete 20-slot run. -/
theorem C3_witness : flushBlock sgeConfEx [runBig] false runBig = .error .poolTooSmall :=
  C3_single_oversized_sge_error.1 sgeConfEx runBig runBig false rfl rfl
    (by norm_num [sgeConfEx, runBig])

/-- Claim C4 (amended): under a job scheduler the submission raises the
runtime-signal error exactly when the pool wall-clock limit `max(rtr)`
is strictly smaller than `send_rt_signal` (line 506); equality is
accepted, so every issued submission satisfies
`send_rt_signal ≤ rtr_max` (not necessarily strictly). -/
theorem C4_rt_signal_check :
    (∀ (conf : Conf) (sch : Sched) (pool : List Run),
      conf.sched = some sch →
      (mkSubmission conf pool = .error .rtSignalTooLarge ↔
        listMax (pool.map Run.rtr) < conf.send_rt_signal)) ∧
    (∀ (conf : Conf) (sch : Sched) (runs : List Run) (subs : List Submission)
      (s : Submission),
      conf.sched = some sch →
      runBatch conf runs = .ok subs → s ∈ subs →
      ∃ M, s.rtp = some M ∧ conf.send_rt_signal ≤ M) := by
  constructor
  · intro conf sch pool hsch
    unfold mkSubmission
    rw [hsch]
    dsimp only
    split
    · rename_i hlt
      exact ⟨fun _ => hlt, fun _ => rfl⟩
    · rename_i hlt
      constructor
      · intro hcontra
        cases hcontra
      · intro hc
        exact absurd hc hlt
  · intro conf sch runs subs s hsch h hs
    unfold runBatch at h
    obtain ⟨hok, -⟩ := runBatchAux_wf runs [] subs h s hs
    obtain ⟨hle, hrtp, -⟩ := mkSubmission_ok_sched hsch hok
    exact ⟨listMax (s.members.map Run.rtr), hrtp, hle⟩

def rtConfEq : Conf := ⟨true, 10, some Sched.sge, 100, false⟩

def rtConfBig : Conf := ⟨true, 10, some Sched.sge, 200, false⟩

def runRt : Run := ⟨0, 4, 100, 0, false⟩

/-- Claim C4 counterexample: with the signal time equal to the pool
wall-clock limit (both 100), the claim demands a fatal error, but the
code's check `rtr_max < send_rt_signal` is false and the submission is
issued. -/
theorem C4_counterexample :
    listMax ([runRt].map Run.rtr) = rtConfEq.send_rt_signal ∧
    mkSubmission rtConfEq [runRt] = .ok ⟨[runRt], some 100, none⟩ := by
  constructor
  · norm_num [listMax, runRt, rtConfEq]
  · norm_num [mkSubmission, rtConfEq, runRt, listMax]

/-- Witness for C4: a signal value strictly above the limit is
rejected. -/
theorem C4_witness : mkSubmission rtConfBig [runRt] = .error .rtSignalTooLarge :=
  (C4_rt_signal_check.1 rtConfBig Sched.sge [runRt] rfl).mpr
    (by norm_num [listMax, runRt, rtConfBig])

/-- Claim C5: for every pool flushed under a scheduler with
`request_vmem`, the requested wall-clock is the maximum (an attained
bound, not the sum) of the members' estimates, and the memory per slot
is the members' memory sum divided by the slot sum, rounded down to an
integer. -/
theorem C5_pool_aggregation :
    ∀ (conf : Conf) (sch : Sched) (runs : List Run) (subs : List Submission)
      (s : Submission),
      conf.sched = some sch →
      conf.request_vmem = true →
      runBatch conf runs = .ok subs →
      s ∈ subs →
      0 ≤ sumVmem s.members →
      (∃ M, s.rtp = some M ∧ M ∈ s.members.map Run.rtr ∧
        ∀ q ∈ s.members.map Run.rtr, q ≤ M) ∧
      s.vmemp = some ⌊sumVmem s.members / (sumSlots s.members : Rat)⌋ := by
  intro conf sch runs subs s hsch hreq h hs hvm
  unfold runBatch at h
  obtain ⟨hok, hne⟩ := runBatchAux_wf runs [] subs h s hs
  obtain ⟨-, hrtp, hvmemp⟩ := mkSubmission_ok_sched hsch hok
  have hmap : s.members.map Run.rtr ≠ [] := by simpa using hne
  obtain ⟨hmem, hbound⟩ := listMax_spec _ hmap
  refine ⟨⟨listMax (s.members.map Run.rtr), hrtp, hmem, hbound⟩, ?_⟩
  rw [hvmemp, if_pos hreq]
  unfold ratTrunc
  rw [if_pos (div_nonneg hvm (Nat.cast_nonneg _))]

/-- Witness for C5: the aggregation law at the first flushed pool of the
concrete batch. -/
theorem C5_witness :
    (∃ M, subEx1.rtp = some M ∧ M ∈ subEx1.members.map Run.rtr ∧
      ∀ q ∈ subEx1.members.map Run.rtr, q ≤ M) ∧
    subEx1.vmemp = some ⌊sumVmem subEx1.members / (sumSlots subEx1.members : Rat)⌋ :=
  C5_pool_aggregation poolConfEx Sched.sge [runEx0, runEx1, runEx2] [subEx1, subEx2] subEx1
    rfl rfl runBatchEx (by simp) (by norm_num [sumVmem, subEx1, runEx0, runEx1])

/-- Claim C9: a skipped last repetition over an empty pool produces no
submission at all (line 435 `continue`s), and every submission the loop
does make carries a nonempty pool, so `max(rtr)` and the slot-sum
division are never evaluated over an empty pool. -/
theorem C9_no_empty_flush :
    (∀ (conf : Conf) (r : Run), r.skip = true → stepRun conf [] r true = .ok ([], [])) ∧
    (∀ (conf : Conf) (runs : List Run) (subs : List Submission) (s : Submission),
      runBatch conf runs = .ok subs → s ∈ subs → s.members ≠ []) := by
  constructor
  · intro conf r hskip
    unfold stepRun
    rw [if_pos hskip, if_pos (Or.inr rfl)]
  · intro conf runs subs s h hs
    unfold runBatch at h
    exact (runBatchAux_wf runs [] subs h s hs).2

def runSkip : Run := ⟨9, 4, 1, 1, true⟩

/-- Witness for C9: a concrete skipped last run over an empty pool, and
the nonemptiness of a concretely flushed pool. -/
theorem C9_witness :
    stepRun poolConfEx [] runSkip true = .ok ([], []) ∧ subEx1.members ≠ [] :=
  ⟨C9_no_empty_flush.1 poolConfEx runSkip rfl,
   C9_no_empty_flush.2 poolConfEx [runEx0, runEx1, runEx2] [subEx1, subEx2] subEx1
     runBatchEx (by simp)⟩

/-! ### Grid expansion: composite axes (misc_tools.py, lines 129-200)

`transpose_list` is Python's `list(map(list, zip(*l)))`: a truncating
transpose.  The composite handling of `grid_combinations` checks the
sub-sequence lengths and builds the combined axis from the sub-sequences
plus `np.arange(lens[0])`. -/

def exOk {ε α : Type} : Except ε α → Bool
  | .ok _ => true
  | .error _ => false

def transposeAux : Nat → List (List Int) → List (List Int)
  | 0, _ => []
  | fuel + 1, ls =>
    if ls.isEmpty || ls.any List.isEmpty then []
    else ls.filterMap List.head? :: transposeAux fuel (ls.map List.tail)

def transpose_list (ls : List (List Int)) : List (List Int) :=
  transposeAux (match ls with | [] => 0 | l :: _ => l.length) ls

lemma filterMap_head_of_ne_nil :
    ∀ (ls : List (List Int)), (∀ l ∈ ls, l ≠ []) →
      ls.filterMap List.head? = ls.map (fun l => l.getD 0 0) := by
  intro ls
  induction ls with
  | nil => intro _; rfl
  | cons a as ih =>
    intro h
    have ha : a ≠ [] := h a (List.mem_cons_self a as)
    cases a with
    | nil => exact absurd rfl ha
    | cons x t =>
      simp only [List.filterMap_cons, List.head?_cons, List.map_cons, List.getD_cons_zero]
      rw [ih (fun l hl => h l (List.mem_cons_of_mem _ hl))]

lemma transposeAux_spec :
    ∀ (L : Nat) (ls : List (List Int)), ls ≠ [] → (∀ l ∈ ls, l.length = L) →
      transposeAux L ls = (List.range L).map (fun i => ls.map (fun l => l.getD i 0)) := by
  intro L
  induction L with
  | zero =>
    intro ls hne hlen
    simp [transposeAux]
  | succ L ih =>
    intro ls hne hlen
    have hemp : ∀ l ∈ ls, l ≠ [] := by
      intro l hl hc
      have := hlen l hl
      rw [hc] at this
      simp at this
    have hcond : ¬ (ls.isEmpty || ls.any List.isEmpty) = true := by
      intro hc
      simp only [Bool.or_eq_true, List.isEmpty_iff, List.any_eq_true] at hc
      rcases hc with hc | ⟨l, hl, hl2⟩
      · exact hne hc
      · exact hemp l hl (by simpa using hl2)
    rw [transposeAux, if_neg hcond]
    rw [List.range_succ_eq_map, List.map_cons, List.map_map]
    congr 1
    · exact filterMap_head_of_ne_nil ls hemp
    · have hmapne : ls.map List.tail ≠ [] := by simpa using hne
      have hmaplen : ∀ l ∈ ls.map List.tail, l.length = L := by
        intro l hl
        obtain ⟨l0, hl0, rfl⟩ := List.mem_map.mp hl
        have := hlen l0 hl0
        rw [List.length_tail]
        omega
      rw [ih (ls.map List.tail) hmapne hmaplen]
      apply List.map_congr_left
      intro i _
      simp only [Function.comp_apply, List.map_map]
      apply List.map_congr_left
      intro l hl
      have hl2 := hemp l hl
      cases l with
      | nil => exact absurd rfl hl2
      | cons x t => rfl

inductive GridErr
  | compositeLenMismatch
  | emptyComposite
deriving DecidableEq, Repr

/-- misc_tools.py lines 166-179 for one composite parameter: check the
sub-sequence lengths (`(lens[0] != lens).any()`, line 170), then build
the combined axis `transpose_list(val_list)` where `val_list` is the
sub-sequences plus `np.arange(lens[0])` (lines 172-176).  An empty
composite crashes in Python (`lens[0]` is an IndexError) and is mapped
to `.error .emptyComposite` here. -/
def processComposite (subs : List (String × List Int)) : Except GridErr (List (List Int)) :=
  match subs with
  | [] => .error .emptyComposite
  | (k0, v0) :: rest =>
    if rest.any (fun sp => sp.2.length != v0.length) then .error .compositeLenMismatch
    else
      .ok (transpose_list (((k0, v0) :: rest).map (fun sp => sp.2) ++
        [(List.range v0.length).map Int.ofNat]))

structure GridAxis where
  names : List String
  vals : List (List Int)
deriving DecidableEq, Repr

inductive GridEntry
  | scalar (vals : List Int)
  | composite (subs : List (String × List Int))
deriving DecidableEq, Repr

/-- The axis-construction loop of `grid_combinations` (lines 166-182):
a scalar parameter contributes one axis of its values; a composite
contributes one combined axis named by its sub-parameters plus
`<name>_idx`.  The first malformed composite raises. -/
def buildAxes : List (String × GridEntry) → Except GridErr (List GridAxis)
  | [] => .ok []
  | (p, .scalar vs) :: rest =>
    match buildAxes rest with
    | .error e => .error e
    | .ok axs => .ok (⟨[p], vs.map (fun v => [v])⟩ :: axs)
  | (p, .composite subs) :: rest =>
    match processComposite subs with
    | .error e => .error e
    | .ok ax =>
      match buildAxes rest with
      | .error e => .error e
      | .ok axs => .ok (⟨subs.map Prod.fst ++ [p ++ "_idx"], ax⟩ :: axs)

/-- All sub-sequences of a composite share one length. -/
def compLensOk (subs : List (String × List Int)) : Prop :=
  ∀ sp ∈ subs, ∀ tp ∈ subs, sp.2.length = tp.2.length

lemma processComposite_ok_iff (subs : List (String × List Int)) (hne : subs ≠ []) :
    exOk (processComposite subs) = true ↔ compLensOk subs := by
  cases subs with
  | nil => exact absurd rfl hne
  | cons hd rest =>
    obtain ⟨k0, v0⟩ := hd
    simp only [processComposite]
    split
    · rename_i hany
      constructor
      · intro hc
        simp [exOk] at hc
      · intro hc
        exfalso
        rw [List.any_eq_true] at hany
        obtain ⟨sp, hsp, hne2⟩ := hany
        have := hc sp (List.mem_cons_of_mem _ hsp) (k0, v0) (List.mem_cons_self _ _)
        simp at hne2
        exact hne2 this
    · rename_i hany
      have hall : ∀ q ∈ rest, q.2.length = v0.length := by
        intro q hq
        by_contra hq2
        exact hany (List.any_eq_true.mpr ⟨q, hq, by simpa using hq2⟩)
      constructor
      · intro _ sp hsp tp htp
        have e1 : sp.2.length = v0.length := by
          rcases List.mem_cons.mp hsp with h | h
          · rw [h]
          · exact hall sp h
        have e2 : tp.2.length = v0.length := by
          rcases List.mem_cons.mp htp with h | h
          · rw [h]
          · exact hall tp h
        rw [e1, e2]
      · intro _
        rfl

lemma buildAxes_ok_iff :
    ∀ (grid : List (String × GridEntry)),
      (∀ p subs, (p, GridEntry.composite subs) ∈ grid → subs ≠ []) →
      (exOk (buildAxes grid) = true ↔
        ∀ p subs, (p, GridEntry.composite subs) ∈ grid → compLensOk subs) := by
  intro grid
  induction grid with
  | nil =>
    intro _
    constructor
    · intro _ p subs hmem
      simp at hmem
    · intro _
      rfl
  | cons e rest ih =>
    intro hno
    obtain ⟨p, entry⟩ := e
    cases entry with
    | scalar vs =>
      have hstep : exOk (buildAxes ((p, GridEntry.scalar vs) :: rest)) = exOk (buildAxes rest) := by
        simp only [buildAxes]
        cases h : buildAxes rest <;> simp [exOk]
      rw [hstep, ih (fun p2 subs h => hno p2 subs (List.mem_cons_of_mem _ h))]
      constructor
      · intro h p2 subs hmem
        rcases List.mem_cons.mp hmem with heq | hmem2
        · simp at heq
        · exact h p2 subs hmem2
      · intro h p2 subs hmem
        exact h p2 subs (List.mem_cons_of_mem _ hmem)
    | composite subs =>
      have hsubs : subs ≠ [] := hno p subs (List.mem_cons_self _ _)
      have hstep : exOk (buildAxes ((p, GridEntry.composite subs) :: rest)) =
          (exOk (processComposite subs) && exOk (buildAxes rest)) := by
        simp only [buildAxes]
        cases hpc : processComposite subs with
        | error e2 => simp [exOk]
        | ok ax =>
          cases hba : buildAxes rest with
          | error e2 => simp [exOk]
          | ok axs => simp [exOk]
      rw [hstep, Bool.and_eq_true, processComposite_ok_iff subs hsubs,
        ih (fun p2 subs2 h => hno p2 subs2 (List.mem_cons_of_mem _ h))]
      constructor
      · rintro ⟨h1, h2⟩ p2 subs2 hmem
        rcases List.mem_cons.mp hmem with heq | hmem2
        · injection heq with he1 he2
          injection he2 with he2
          rw [he2]
          exact h1
        · exact h2 p2 subs2 hmem2
      · intro hall
        exact ⟨hall p subs (List.mem_cons_self _ _),
          fun p2 subs2 h => hall p2 subs2 (List.mem_cons_of_mem _ h)⟩

lemma processComposite_axis (hd : String × List Int) (tl : List (String × List Int)) (L : Nat)
    (hlen : ∀ sp ∈ hd :: tl, sp.2.length = L) :
    processComposite (hd :: tl) =
      .ok ((List.range L).map (fun i =>
        (hd :: tl).map (fun sp => sp.2.getD i 0) ++ [Int.ofNat i])) := by
  obtain ⟨k0, v0⟩ := hd
  have hv0 : v0.length = L := hlen (k0, v0) (List.mem_cons_self _ _)
  simp only [processComposite]
  rw [if_neg ?hany]
  case hany =>
    intro hc
    rw [List.any_eq_true] at hc
    obtain ⟨sp, hsp, hb⟩ := hc
    have := hlen sp (List.mem_cons_of_mem _ hsp)
    simp [this, hv0] at hb
  congr 1
  have hlens : ∀ l ∈ ((k0, v0) :: tl).map (fun sp => sp.2) ++
      [(List.range v0.length).map Int.ofNat], l.length = L := by
    intro l hl
    rcases List.mem_append.mp hl with hl | hl
    · obtain ⟨sp, hsp, rfl⟩ := List.mem_map.mp hl
      exact hlen sp hsp
    · rw [List.mem_singleton] at hl
      subst hl
      simp [hv0]
  have hfuel : transpose_list (((k0, v0) :: tl).map (fun sp => sp.2) ++
      [(List.range v0.length).map Int.ofNat]) =
      transposeAux L (((k0, v0) :: tl).map (fun sp => sp.2) ++
        [(List.range v0.length).map Int.ofNat]) := by
    unfold transpose_list
    simp only [List.map_cons, List.cons_append]
    rw [hv0]
  rw [hfuel, transposeAux_spec L _ (by simp) hlens]
  apply List.map_congr_left
  intro i hi
  rw [List.map_append, List.map_map]
  congr 1
  have hi2 : i < v0.length := by
    rw [hv0]
    exact List.mem_range.mp hi
  simp only [List.map_cons, List.map_nil]
  rw [List.getD_eq_getElem?_getD, List.getElem?_map, List.getElem?_range hi2]
  rfl

/-- Claim C6: grid expansion fails exactly when some (nonempty)
composite parameter has sub-sequences of unequal lengths; with a shared
length `L` a composite contributes exactly one combined axis of `L`
positions whose `i`-th element carries the `k` sub-values at position
`i` plus the index `i`, under the names of the sub-parameters followed
by `<name>_idx`. -/
theorem C6_grid_composite :
    (∀ (grid : List (String × GridEntry)),
      (∀ p subs, (p, GridEntry.composite subs) ∈ grid → subs ≠ []) →
      (exOk (buildAxes grid) = true ↔
        ∀ p subs, (p, GridEntry.composite subs) ∈ grid → compLensOk subs)) ∧
    (∀ (hd : String × List Int) (tl : List (String × List Int)) (L : Nat),
      (∀ sp ∈ hd :: tl, sp.2.length = L) →
      processComposite (hd :: tl) =
        .ok ((List.range L).map (fun i =>
          (hd :: tl).map (fun sp => sp.2.getD i 0) ++ [Int.ofNat i]))) ∧
    (∀ (p : String) (subs : List (String × List Int)) (rest : List (String × GridEntry))
      (axs : List GridAxis),
      buildAxes ((p, GridEntry.composite subs) :: rest) = .ok axs →
      axs.head?.map GridAxis.names = some (subs.map Prod.fst ++ [p ++ "_idx"])) := by
  refine ⟨buildAxes_ok_iff, processComposite_axis, ?_⟩
  intro p subs rest axs h
  simp only [buildAxes] at h
  cases hpc : processComposite subs with
  | error e =>
    rw [hpc] at h
    dsimp only at h
    cases h
  | ok ax =>
    rw [hpc] at h
    dsimp only at h
    cases hba : buildAxes rest with
    | error e =>
      rw [hba] at h
      dsimp only at h
      cases h
    | ok axs2 =>
      rw [hba] at h
      dsimp only at h
      cases h
      rfl

def compEx : List (String × List Int) := [("res", [200, 1000]), ("nz", [120, 80])]

/-- Witness for C6: the docstring composite
`c1 = {"res": [200, 1000], "nz": [120, 80]}` produces a combined axis
of 2 positions. -/
theorem C6_witness :
    processComposite compEx =
      .ok ((List.range 2).map (fun i =>
        compEx.map (fun sp => sp.2.getD i 0) ++ [Int.ofNat i])) :=
  C6_grid_composite.2.1 ("res", [200, 1000]) [("nz", [120, 80])] 2 (by decide)

/-! ### Identical-run detection (misc_tools.py, lines 423-471)

A parsed namelist is an association list from parameter name to value
(integer or string).  `checkIdentical ref r` is the per-candidate loop
of `get_identical_runs`: over the set union of both key sets, every key
outside `ignore_params` must be present in both mappings with equal
values. -/

inductive NVal
  | i (z : Int)
  | s (v : String)
deriving DecidableEq, Repr

abbrev Namelist := List (String × NVal)

/-- Line 442-443 of misc_tools.py. -/
def ignore_params : List String :=
  ["start_year", "start_month", "start_day", "start_hour", "start_minute",
   "run_hours", "_outname"]

def nlKeys (nl : Namelist) : List String := nl.map Prod.fst

/-- Line 463: `(param not in namelist_r) or (param not in namelist_ref)
or (namelist_ref[param] != namelist_r[param])` negated. -/
def paramMatch (ref r : Namelist) (p : String) : Bool :=
  match List.lookup p r, List.lookup p ref with
  | some a, some b => a == b
  | _, _ => false

/-- Lines 459-465: the candidate qualifies iff no non-ignored parameter
of either namelist mismatches. -/
def checkIdentical (ref r : Namelist) : Bool :=
  ((nlKeys r ++ nlKeys ref).dedup).all
    (fun p => decide (p ∈ ignore_params) || paramMatch ref r p)

lemma paramMatch_iff (ref r : Namelist) (p : String) :
    paramMatch ref r p = true ↔
      (List.lookup p r).isSome = true ∧ List.lookup p r = List.lookup p ref := by
  unfold paramMatch
  cases hr : List.lookup p r with
  | none => simp
  | some a =>
    cases href : List.lookup p ref with
    | none => simp
    | some b =>
      dsimp only
      rw [beq_iff_eq]
      simp only [Option.isSome_some, true_and, Option.some.injEq]

def nlRef : Namelist :=
  [("mp_physics", NVal.i 5), ("start_hour", NVal.i 0), ("dx", NVal.i 100),
   ("input_sounding", NVal.s "stable")]

def nlStartHour : Namelist :=
  [("mp_physics", NVal.i 5), ("start_hour", NVal.i 6), ("dx", NVal.i 100),
   ("input_sounding", NVal.s "stable")]

def nlMp : Namelist :=
  [("mp_physics", NVal.i 2), ("start_hour", NVal.i 0), ("dx", NVal.i 100),
   ("input_sounding", NVal.s "stable")]

/-- Claim C7: a candidate qualifies as identical iff every key outside
the fixed ignore-set that is present in either mapping is present in
both with equal values (a key missing on one side is a mismatch); in
particular namelists differing only in `start_hour` are identical, and a
difference in `mp_physics` is not. -/
theorem C7_identical_runs :
    (∀ (ref r : Namelist),
      (checkIdentical ref r = true ↔
        ∀ p ∈ nlKeys r ++ nlKeys ref, p ∉ ignore_params →
          (List.lookup p r).isSome = true ∧ List.lookup p r = List.lookup p ref)) ∧
    checkIdentical nlRef nlStartHour = true ∧
    checkIdentical nlRef nlMp = false := by
  refine ⟨?_, by decide, by decide⟩
  intro ref r
  unfold checkIdentical
  rw [List.all_eq_true]
  constructor
  · intro h p hp hig
    have hp2 : p ∈ (nlKeys r ++ nlKeys ref).dedup := List.mem_dedup.mpr hp
    have h2 := h p hp2
    rw [Bool.or_eq_true] at h2
    rcases h2 with hc | hc
    · exact absurd (of_decide_eq_true hc) hig
    · exact (paramMatch_iff ref r p).mp hc
  · intro h p hp
    rw [Bool.or_eq_true]
    by_cases hig : p ∈ ignore_params
    · exact Or.inl (decide_eq_true hig)
    · exact Or.inr ((paramMatch_iff ref r p).mpr (h p (List.mem_dedup.mp hp) hig))

/-- Witness for C7: the two concrete judgements produced by the
theorem. -/
theorem C7_witness :
    checkIdentical nlRef nlStartHour = true ∧ checkIdentical nlRef nlMp = false :=
  ⟨C7_identical_runs.2.1, C7_identical_runs.2.2⟩

/-! ### Restart preparation (misc_tools.py, lines 829-904)

`prepare_restart` is embedded over its observable inputs: whether the
run log already holds the completion marker, the checkpoint timestamps
(most recent first, as `ls -t` lists them), the requested end time, and
the output files that would be moved into `rst/`.  Timestamps are in
seconds; the Python code's `run_hours <= 0` test on
`(end - start)/3600` holds iff `endTime - t ≤ 0`, since dividing by
3600 preserves the sign. -/

structure RestartInput where
  logComplete : Bool
  rstTimes : List Int
  endTime : Int
  outFiles : List String
deriving DecidableEq, Repr

inductive RestartResult
  | complete
  | noRstFiles
  | prepared (runSeconds : Int)
deriving DecidableEq, Repr

structure RestartEffect where
  result : RestartResult
  movedFiles : List String
  namelistPatched : Bool
deriving DecidableEq, Repr

def prepare_restart (inp : RestartInput) : RestartEffect :=
  if inp.logComplete = true then ⟨.complete, [], false⟩
  else
    match inp.rstTimes with
    | [] => ⟨.noRstFiles, [], false⟩
    | t :: _ =>
      if inp.endTime - t ≤ 0 then ⟨.complete, [], false⟩
      else ⟨.prepared (inp.endTime - t), inp.outFiles, true⟩

/-- Claim C8: when the most recent checkpoint's timestamp is at least
the requested end time (elapsed duration `≤ 0`), `prepare_restart`
reports the run as already complete, patches no namelist, and moves no
output file into the `rst/` backup area. -/
theorem C8_restart_complete :
    ∀ (inp : RestartInput) (t : Int) (ts : List Int),
      inp.rstTimes = t :: ts →
      inp.endTime ≤ t →
      (prepare_restart inp).result = .complete ∧
      (prepare_restart inp).movedFiles = [] ∧
      (prepare_restart inp).namelistPatched = false := by
  intro inp t ts hrst hle
  unfold prepare_restart
  split
  · exact ⟨rfl, rfl, rfl⟩
  · rw [hrst]
    dsimp only
    rw [if_pos (by omega : inp.endTime - t ≤ 0)]
    exact ⟨rfl, rfl, rfl⟩

def rstInpEx : RestartInput := ⟨false, [50], 40, ["wrfout_d01"]⟩

/-- Witness for C8: a checkpoint at time 50 against end time 40. -/
theorem C8_witness :
    (prepare_restart rstInpEx).result = .complete ∧
    (prepare_restart rstInpEx).movedFiles = [] ∧
    (prepare_restart rstInpEx).namelistPatched = false :=
  C8_restart_complete rstInpEx 50 [] rfl (by decide)

end RunWrf
